import Mathlib

/-!
Verification of the SunPixel core conversion pipeline: perceptual color
matching, region-average resampling, block palette and voxel grid
construction, and schem serialization, as implemented by the class
`WebImageToStructure` in `SunPixelWeb.py` and its CLI variant `ImageToSchem`.

Machine floating point in the source is modelled with exact arithmetic.
For every comparison the source performs this is order-faithful: the
radicands of `color_distance` are multiples of 1/512 below 2^20, so they
and their square roots are computed exactly enough that float comparison
agrees with exact comparison, and the scale and mean computations of
`generate_structure` act on small integer-derived quantities whose float
images round to the same truncated integers.
-/

namespace SunPixel

/-- RGB color triple (r, g, b); channels are 8-bit values in practice. -/
abbrev Color : Type := ℕ × ℕ × ℕ

/-- Palette entry: a block identifier string and its legacy aux data value. -/
abbrev Entry : Type := String × ℕ

/-- Merged palette table in dict iteration (= insertion) order, with the
string RGB keys already parsed to triples exactly as `find_closest_color`
parses them on every scan. -/
abbrev Table : Type := List (Color × Entry)

/-- A color triple with all channels in the 8-bit range 0..255. -/
def InRange (c : Color) : Prop := c.1 ≤ 255 ∧ c.2.1 ≤ 255 ∧ c.2.2 ≤ 255

instance (c : Color) : Decidable (InRange c) := by unfold InRange; infer_instance

/-- Squared perceptual distance of `color_distance`: the radicand of its
`math.sqrt` call, computed exactly over ℚ.  `color_distance c1 c2` is the
square root of this value, so distance comparisons are equivalent to
comparisons of these radicands. -/
def colorDistSq (c1 c2 : Color) : ℚ :=
  let rmean : ℚ := ((c1.1 : ℚ) + (c2.1 : ℚ)) / 2
  (2 + rmean / 256) * ((c1.1 : ℚ) - (c2.1 : ℚ)) ^ 2
    + 4 * ((c1.2.1 : ℚ) - (c2.2.1 : ℚ)) ^ 2
    + (2 + (255 - rmean) / 256) * ((c1.2.2 : ℚ) - (c2.2.2 : ℚ)) ^ 2

/-- The radicand of `color_distance` scaled by 512, over ℤ:
512·((2 + rmean/256)(r1-r2)^2 + 4(g1-g2)^2 + (2 + (255-rmean)/256)(b1-b2)^2)
with rmean = (r1+r2)/2.  The scaling clears both denominators, so comparing
these integers is equivalent to comparing the exact radicands, hence (square
root being strictly monotone, and the float images of these small dyadic
values exact) to the float distance comparisons the source performs. -/
def colorDist512 (c1 c2 : Color) : ℤ :=
  (1024 + (c1.1 : ℤ) + c2.1) * ((c1.1 : ℤ) - c2.1) ^ 2
    + 2048 * ((c1.2.1 : ℤ) - c2.2.1) ^ 2
    + (1534 - ((c1.1 : ℤ) + c2.1)) * ((c1.2.2 : ℤ) - c2.2.2) ^ 2

/-- One step of the minimum search loop of `find_closest_color`: keep the
current best entry unless the new entry is strictly closer
(`if distance < min_distance`), so the first entry attaining the minimum
wins.  `none` models the initial `min_distance = inf` state. -/
def closerStep (c : Color) (acc : Option (Color × Entry)) (kv : Color × Entry) :
    Option (Color × Entry) :=
  match acc with
  | none => some kv
  | some best => if colorDist512 c kv.1 < colorDist512 c best.1 then some kv else some best

/-- `find_closest_color`: linear scan over the merged table keeping the first
key attaining the minimal perceptual distance, then returning that key's
entry; falls back to white concrete when the table is empty. -/
def find_closest_color (table : Table) (c : Color) : Entry :=
  match table.foldl (closerStep c) none with
  | some kv => kv.2
  | none => ("minecraft:white_concrete", 0)

/-- Pixel buffer: the color at column i, row j of the decoded image. -/
abbrev Pix : Type := ℕ → ℕ → Color

/-- The exact-arithmetic reference form of the rectangle sampled for output
cell (x, y) by `generate_structure`: rows
`int(y*scale_y) ..< min(int((y+1)*scale_y), oh)` and columns
`int(x*scale_x) ..< min(int((x+1)*scale_x), ow)` with the truncations taken
of the exact products (natural division).  The program computes the bounds
in binary64 (`srcIdx`, see `cellRegionF`); the two coincide exactly at the
cells where the double truncations equal the exact floors. -/
def cellRegion (pix : Pix) (ow oh w h x y : ℕ) : List Color :=
  let x0 := x * ow / w
  let x1 := min ((x + 1) * ow / w) ow
  let y0 := y * oh / h
  let y1 := min ((y + 1) * oh / h) oh
  (List.range (y1 - y0)).flatMap fun j => (List.range (x1 - x0)).map fun i => pix (x0 + i) (y0 + j)

/-- Resampled value of output cell (x, y) over the exact-arithmetic
rectangle: the channel-wise truncated mean
`np.mean(region, axis=(0, 1)).astype(int)` of `generate_structure`, and pure
white when the region is empty (`region.size == 0`).  The bit-faithful
version with binary64 rectangle bounds is `cellColorF`. -/
def cellColor (pix : Pix) (ow oh w h x y : ℕ) : Color :=
  let cells := cellRegion pix ow oh w h x y
  if cells = [] then (255, 255, 255)
  else ((cells.map fun c => c.1).sum / cells.length,
        (cells.map fun c => c.2.1).sum / cells.length,
        (cells.map fun c => c.2.2).sum / cells.length)

/-- Modelled from the spec's words for the Grid Resampler, to be compared
with `cellColor`: real-valued scale factors `ow / w` and `oh / h`, rectangle
`[floor(x*scale_x), min(floor((x+1)*scale_x), ow)) ×
[floor(y*scale_y), min(floor((y+1)*scale_y), oh))`, cell value the
component-wise arithmetic mean truncated toward zero (= floor, all values
nonnegative), and pure white for an empty rectangle. -/
def specCellColor (pix : Pix) (ow oh w h x y : ℕ) : Color :=
  let sx : ℚ := (ow : ℚ) / (w : ℚ)
  let sy : ℚ := (oh : ℚ) / (h : ℚ)
  let x0 : ℕ := ⌊(x : ℚ) * sx⌋₊
  let x1 : ℕ := min ⌊((x : ℚ) + 1) * sx⌋₊ ow
  let y0 : ℕ := ⌊(y : ℚ) * sy⌋₊
  let y1 : ℕ := min ⌊((y : ℚ) + 1) * sy⌋₊ oh
  let cells := (List.range (y1 - y0)).flatMap fun j =>
    (List.range (x1 - x0)).map fun i => pix (x0 + i) (y0 + j)
  if cells = [] then (255, 255, 255)
  else (⌊(((cells.map fun c => c.1).sum : ℕ) : ℚ) / (cells.length : ℚ)⌋₊,
        ⌊(((cells.map fun c => c.2.1).sum : ℕ) : ℚ) / (cells.length : ℚ)⌋₊,
        ⌊(((cells.map fun c => c.2.2).sum : ℕ) : ℚ) / (cells.length : ℚ)⌋₊)

/-- Fuel-driven floor of the base-2 logarithm (structural recursion on the
fuel, so it evaluates in the kernel; the fuel `n` itself always suffices). -/
def log2fuel : ℕ → ℕ → ℕ
  | 0, _ => 0
  | fuel + 1, n => if 2 ≤ n then log2fuel fuel (n / 2) + 1 else 0

/-- Floor of log2 (0 for inputs 0 and 1). -/
def log2n (n : ℕ) : ℕ := log2fuel n n

/-- The IEEE round-to-nearest, ties-to-even decision for dropping the s low
bits of p: round up when the dropped part exceeds half an ulp, down when
below, and on an exact tie up exactly when the sticky flag marks a nonzero
fraction further below or the kept mantissa is odd. -/
def roundUp (p s : ℕ) (sticky : Bool) : Bool :=
  if 2 ^ (s - 1) < p % 2 ^ s then true
  else if p % 2 ^ s < 2 ^ (s - 1) then false
  else if sticky then true
  else decide (p / 2 ^ s % 2 = 1)

/-- Core of the IEEE rounding step: drop the s low bits of p following the
`roundUp` decision.  Returns (m, s) with value m * 2^s (the exponent grows
by one when rounding up overflows to 2^53). -/
def roundCore (p s : ℕ) (sticky : Bool) : ℕ × ℕ :=
  let m1 := if roundUp p s sticky then p / 2 ^ s + 1 else p / 2 ^ s
  if m1 = 2 ^ 53 then (2 ^ 52, s + 1) else (m1, s)

/-- Round a natural number (plus a sticky fraction strictly between 0 and 1
when the flag is set) to a 53-bit mantissa with IEEE round-to-nearest,
ties-to-even.  Returns (m, s) with value m * 2^s; exact inputs below 2^53
pass through unchanged. -/
def roundTo53 (p : ℕ) (sticky : Bool) : ℕ × ℕ :=
  if log2n p ≤ 52 then (p, 0) else roundCore p (log2n p - 52) sticky

/-- The binary64 quotient n / d of two naturals: mantissa and binary
exponent of the correctly rounded IEEE double (normal range; division by
zero yields zero, a case the program never reaches).  This is the `ow / w`
style float division the source performs. -/
def floatDiv (n d : ℕ) : ℕ × ℤ :=
  if n = 0 ∨ d = 0 then (0, 0)
  else
    let L := 54 + log2n d
    let q := n * 2 ^ L / d
    let r := n * 2 ^ L % d
    let ms := roundTo53 q (decide (r ≠ 0))
    (ms.1, (ms.2 : ℤ) - L)

/-- The binary64 product of an exact integer (below 2^53, as all grid
coordinates are) with a double: `x * scale` in the source. -/
def floatMul (a : ℕ) (f : ℕ × ℤ) : ℕ × ℤ :=
  let ms := roundTo53 (a * f.1) false
  (ms.1, f.2 + ms.2)

/-- The binary64 quotient of an exact integer by a double:
`target_width / orig_ratio` in the source.  Division by a power of two is
exact, so rounding a / (m * 2^e) equals rounding a / m and shifting. -/
def floatDivF (a : ℕ) (f : ℕ × ℤ) : ℕ × ℤ :=
  let ms := floatDiv a f.1
  (ms.1, ms.2 - f.2)

/-- The binary64 absolute difference of two doubles: the exact difference
aligned to the smaller exponent, then rounded; `abs(orig - targ)` in the
source. -/
def floatAbsSub (f g : ℕ × ℤ) : ℕ × ℤ :=
  let emin := min f.2 g.2
  let a := f.1 * 2 ^ (f.2 - emin).toNat
  let b := g.1 * 2 ^ (g.2 - emin).toNat
  let ms := roundTo53 (max a b - min a b) false
  (ms.1, emin + ms.2)

/-- Proof helper: the exact natural difference that `floatAbsSub` rounds
(the two mantissas aligned to the smaller exponent). -/
def absSubP (f g : ℕ × ℤ) : ℕ :=
  let emin := min f.2 g.2
  max (f.1 * 2 ^ (f.2 - emin).toNat) (g.1 * 2 ^ (g.2 - emin).toNat)
    - min (f.1 * 2 ^ (f.2 - emin).toNat) (g.1 * 2 ^ (g.2 - emin).toNat)

/-- Comparison of two doubles, exact on their values (as IEEE comparison
is): cross-compare the exponent-aligned mantissas. -/
def fltLtB (f g : ℕ × ℤ) : Bool :=
  let emin := min f.2 g.2
  decide (f.1 * 2 ^ (f.2 - emin).toNat < g.1 * 2 ^ (g.2 - emin).toNat)

/-- Python `int()` truncation of a nonnegative double. -/
def floatTruncNat (f : ℕ × ℤ) : ℕ :=
  if 0 ≤ f.2 then f.1 * 2 ^ f.2.toNat else f.1 / 2 ^ (-f.2).toNat

/-- The double literal 0.05 of the source: 3602879701896397 * 2^-56, which
is strictly greater than 1/20. -/
def f005 : ℕ × ℤ := (3602879701896397, -56)

/-- Exact rational value of a model double. -/
def fval (f : ℕ × ℤ) : ℚ := (f.1 : ℚ) * (2 : ℚ) ^ f.2

/-- Exact rational value of a rounded mantissa-shift pair. -/
def rval (ms : ℕ × ℕ) : ℚ := (ms.1 : ℚ) * (2 : ℚ) ^ ms.2

/-- The unit roundoff of binary64: relative rounding error bound 2^-53. -/
def feps : ℚ := 1 / 2 ^ 53

/-- The rectangle bound as the program computes it: `int(a * (b / n))` with
the division and multiplication performed in binary64. -/
def srcIdx (a b n : ℕ) : ℕ := floatTruncNat (floatMul a (floatDiv b n))

/-- The bit-faithful sampled rectangle of `generate_structure`: the bounds
are the binary64 truncations `srcIdx`, which can differ from the exact
floors of `cellRegion` when rounding crosses an integer (e.g. width 1
upscaled to 49 at x = 48, where 49 * (1/49) < 1 in binary64). -/
def cellRegionF (pix : Pix) (ow oh w h x y : ℕ) : List Color :=
  let x0 := srcIdx x ow w
  let x1 := min (srcIdx (x + 1) ow w) ow
  let y0 := srcIdx y oh h
  let y1 := min (srcIdx (y + 1) oh h) oh
  (List.range (y1 - y0)).flatMap fun j => (List.range (x1 - x0)).map fun i => pix (x0 + i) (y0 + j)

/-- Bit-faithful resampled cell value: truncated channel means over
`cellRegionF`, pure white when that region is empty. -/
def cellColorF (pix : Pix) (ow oh w h x y : ℕ) : Color :=
  let cells := cellRegionF pix ow oh w h x y
  if cells = [] then (255, 255, 255)
  else ((cells.map fun c => c.1).sum / cells.length,
        (cells.map fun c => c.2.1).sum / cells.length,
        (cells.map fun c => c.2.2).sum / cells.length)

/-- Block identifier of a table entry. -/
def entryId (kv : Color × Entry) : String := kv.2.1

/-- `list(set(block[0] for block in self.color_to_block.values()))` of
`generate_structure`: the deduplicated block identifiers of the whole merged
table.  A Python set fixes no enumeration order; `List.dedup` is one concrete
enumeration, and order-dependent results are additionally stated for
arbitrary permutations of this list. -/
def blockPalette (table : Table) : List String :=
  (table.map entryId).dedup

/-- Palette index lookup of `generate_structure`: `palette.index(name)` when
`name in palette`, else the defensive fallback index 0. -/
def indexOfD (palette : List String) (name : String) : ℕ :=
  if name ∈ palette then palette.indexOf name else 0

/-- The palette entry the Color Matcher chooses for output cell (x, y). -/
def cellEntry (table : Table) (pix : Pix) (ow oh w h x y : ℕ) : Entry :=
  find_closest_color table (cellColor pix ow oh w h x y)

/-- The palette index stored at cell (x, y) of the voxel grid. -/
def cellIndex (table : Table) (palette : List String) (pix : Pix)
    (ow oh w h x y : ℕ) : ℕ :=
  indexOfD palette (cellEntry table pix ow oh w h x y).1

/-- The IndexGrid built by `generate_structure`: h rows (y outer) of w
palette indices (x inner), the single layer of `self.block_data`. -/
def indexGrid (table : Table) (palette : List String) (pix : Pix)
    (ow oh w h : ℕ) : List (List ℕ) :=
  (List.range h).map fun y =>
    (List.range w).map fun x => cellIndex table palette pix ow oh w h x y

/-- The AuxGrid built by `generate_structure`: h rows of w aux data values,
the single layer of `self.block_data_values`. -/
def auxGrid (table : Table) (pix : Pix) (ow oh w h : ℕ) : List (List ℕ) :=
  (List.range h).map fun y =>
    (List.range w).map fun x => (cellEntry table pix ow oh w h x y).2

/-- Wrap of a nonnegative integer into a signed 16-bit NBT Short value. -/
def toShort (n : ℕ) : ℤ := ((n : ℤ) + 32768) % 65536 - 32768

/-- Wrap of a nonnegative integer into a signed 8-bit NBT Byte value, the
cell type of `nbtlib.ByteArray` (int8): indices up to 127 are preserved,
larger ones wrap (recent numpy raises instead, so only palettes of at most
128 blocks serialize as the identity either way). -/
def toByte (n : ℕ) : ℤ := ((n : ℤ) + 128) % 256 - 128

/-- The tag tree written by `_save_schem_file` (the content of the
gzip-compressed container; the byte-level compression is outside the model). -/
structure SchemFile where
  version : ℤ
  dataVersion : ℤ
  width : ℤ
  height : ℤ
  length : ℤ
  offset : List ℤ
  palette : List (String × ℕ)
  blockData : List ℤ
  blockEntities : List Unit
deriving DecidableEq

/-- `_save_schem_file`: Version 2, DataVersion 3100, Short dimensions
(Width = w, Height = depth = 1, Length = h), zero Offset, the Palette
compound mapping each block name to its enumeration index, BlockData the
C-order flattening of the single-layer index grid, and no block entities. -/
def saveSchem (palette : List String) (grid : List (List ℕ)) (w h : ℕ) : SchemFile :=
  { version := 2
    dataVersion := 3100
    width := toShort w
    height := toShort 1
    length := toShort h
    offset := [0, 0, 0]
    palette := palette.enum.map fun p => (p.2, p.1)
    blockData := grid.flatten.map toByte
    blockEntities := [] }

/-- Python dict update of a single key: overwrite in place when the key is
present, append otherwise. -/
def dictInsert (t : Table) (kv : Color × Entry) : Table :=
  if t.any fun p => p.1 = kv.1 then
    t.map fun p => if p.1 = kv.1 then (p.1, kv.2) else p
  else t ++ [kv]

/-- `load_block_mappings`: starting from an empty dict, merge in directory
order the color table of every block file whose name is selected; later
files overwrite earlier ones on color key collisions.  Files are modelled
already parsed to tables. -/
def load_block_mappings (files : List (String × Table)) (selected : List String) : Table :=
  files.foldl (fun acc f => if f.1 ∈ selected then f.2.foldl dictInsert acc else acc) []

/-- `set_size`: both requested dimensions are clamped from below by 1. -/
def set_size (w h : ℤ) : ℤ × ℤ := (max 1 w, max 1 h)

/-- The effective output dimensions chosen inside `convert`: the requested
size when one is given, else the original image size, both through
`set_size`. -/
def effectiveSize (ow oh : ℕ) (size : Option (ℤ × ℤ)) : ℤ × ℤ :=
  match size with
  | none => set_size ow oh
  | some s => set_size s.1 s.2

/-- The `convert` entry point for the schem format: load the selected
palettes, return early with no output when the merged table is empty,
otherwise resample, match and serialize.  `none` models the early `False`
return taken before any file is written. -/
def convert (files : List (String × Table)) (selected : List String) (pix : Pix)
    (ow oh : ℕ) (size : Option (ℤ × ℤ)) : Option SchemFile :=
  let table := load_block_mappings files selected
  if table = [] then none
  else
    let wh := effectiveSize ow oh size
    let w := wh.1.toNat
    let h := wh.2.toNat
    some (saveSchem (blockPalette table) (indexGrid table (blockPalette table) pix ow oh w h) w h)

/-- `calculate_best_ratio` of the CLI variant, bit-faithful: both aspect
quotients, their absolute difference, the comparison against the double
literal 0.05, the branch comparison, and the recomputed side are all
performed in binary64 exactly as the source does. -/
def calculateBestSize (ow oh tw th : ℕ) : ℕ × ℕ :=
  let orig := floatDiv ow oh
  let targ := floatDiv tw th
  if fltLtB (floatAbsSub orig targ) f005 then (tw, th)
  else if fltLtB targ orig then (tw, floatTruncNat (floatDivF tw orig))
  else (floatTruncNat (floatMul th orig), th)

/-- Concrete two-entry table for concrete runs: black maps to block a, light
gray to block b. -/
def tableCex : Table := [((0, 0, 0), ("blk:a", 0)), ((200, 200, 200), ("blk:b", 0))]

/-- All-black pixel buffer. -/
def pixBlack : Pix := fun _ _ => (0, 0, 0)

/-- Diagonal test pixel buffer with pairwise distinct rows and columns. -/
def pixTest : Pix := fun i j => (i + 1, j + 2, 0)

/-- The integer comparator of the embedded loop is the exact radicand of
`color_distance` scaled by 512. -/
theorem colorDist512_cast (c1 c2 : Color) :
    (colorDist512 c1 c2 : ℚ) = 512 * colorDistSq c1 c2 := by
  unfold colorDist512 colorDistSq
  push_cast
  ring

/-- Invariant of the `find_closest_color` loop once a best entry exists: the
final best either is the initial one or comes from the remaining list, and it
minimizes the squared distance over both. -/
theorem foldl_closerStep_min (c : Color) :
    ∀ (l : Table) (b : Color × Entry),
      ∃ r, l.foldl (closerStep c) (some b) = some r ∧ (r = b ∨ r ∈ l) ∧
        colorDist512 c r.1 ≤ colorDist512 c b.1 ∧
        ∀ kv ∈ l, colorDist512 c r.1 ≤ colorDist512 c kv.1 := by
  intro l
  induction l with
  | nil => exact fun b => ⟨b, rfl, Or.inl rfl, le_refl _, by simp⟩
  | cons kv l ih =>
    intro b
    by_cases hlt : colorDist512 c kv.1 < colorDist512 c b.1
    · obtain ⟨r, hr, hmem, hle, hmin⟩ := ih kv
      refine ⟨r, ?_, ?_, ?_, ?_⟩
      · simpa [closerStep, hlt] using hr
      · exact Or.inr (hmem.elim (fun h => h ▸ List.mem_cons_self kv l)
          (List.mem_cons_of_mem kv))
      · exact hle.trans hlt.le
      · intro kv' hkv'
        rcases List.mem_cons.mp hkv' with h | h
        · exact h ▸ hle
        · exact hmin kv' h
    · obtain ⟨r, hr, hmem, hle, hmin⟩ := ih b
      refine ⟨r, ?_, ?_, hle, ?_⟩
      · simpa [closerStep, hlt] using hr
      · exact hmem.elim Or.inl (fun h => Or.inr (List.mem_cons_of_mem kv h))
      · intro kv' hkv'
        rcases List.mem_cons.mp hkv' with h | h
        · exact h ▸ hle.trans (not_lt.mp hlt)
        · exact hmin kv' h

/-- On a non-empty table, `find_closest_color` returns the entry of some
table key that minimizes the squared perceptual distance to the query. -/
theorem find_closest_color_spec (table : Table) (c : Color) (h : table ≠ []) :
    ∃ kv ∈ table, find_closest_color table c = kv.2 ∧
      ∀ kv' ∈ table, colorDist512 c kv.1 ≤ colorDist512 c kv'.1 := by
  match table, h with
  | kv :: l, _ =>
    obtain ⟨r, hr, hmem, hle, hmin⟩ := foldl_closerStep_min c l kv
    have hfold : (kv :: l).foldl (closerStep c) none = some r := by
      simpa [closerStep] using hr
    refine ⟨r, ?_, ?_, ?_⟩
    · exact hmem.elim (fun h => h ▸ List.mem_cons_self kv l) (List.mem_cons_of_mem kv)
    · simp [find_closest_color, hfold]
    · intro kv' hkv'
      rcases List.mem_cons.mp hkv' with h | h
      · exact h ▸ hle
      · exact hmin kv' h

/-- The block identifier matched for any cell is one of the table's block
identifiers, hence a member of the deduplicated block palette. -/
theorem cellEntry_id_mem_blockPalette (table : Table) (pix : Pix)
    (ow oh w h x y : ℕ) (ht : table ≠ []) :
    (cellEntry table pix ow oh w h x y).1 ∈ blockPalette table := by
  obtain ⟨kv, hkv, heq, -⟩ :=
    find_closest_color_spec table (cellColor pix ow oh w h x y) ht
  rw [cellEntry, heq]
  exact List.mem_dedup.mpr (List.mem_map.mpr ⟨kv, hkv, rfl⟩)

/-- C1: for every non-empty merged palette table and every RGB query color,
`find_closest_color` returns the entry of some table key, and no entry of the
table lies strictly closer to the query under the perceptual metric
sqrt((2 + rmean/256)(r1-r2)^2 + 4(g1-g2)^2 + (2 + (255-rmean)/256)(b1-b2)^2)
with rmean = (r1+r2)/2. -/
theorem find_closest_color_min (table : Table) (c : Color) (ht : table ≠ [])
    (_hc : InRange c) (_htr : ∀ kv ∈ table, InRange kv.1) :
    ∃ kv ∈ table, find_closest_color table c = kv.2 ∧
      ∀ kv' ∈ table,
        ¬ Real.sqrt ((colorDistSq c kv'.1 : ℚ) : ℝ) <
            Real.sqrt ((colorDistSq c kv.1 : ℚ) : ℝ) := by
  obtain ⟨kv, hkv, heq, hmin⟩ := find_closest_color_spec table c ht
  refine ⟨kv, hkv, heq, fun kv' hkv' => not_lt.mpr (Real.sqrt_le_sqrt ?_)⟩
  have hq : (512 : ℚ) * colorDistSq c kv.1 ≤ 512 * colorDistSq c kv'.1 := by
    rw [← colorDist512_cast, ← colorDist512_cast]
    exact_mod_cast hmin kv' hkv'
  have hle : colorDistSq c kv.1 ≤ colorDistSq c kv'.1 :=
    le_of_mul_le_mul_left hq (by norm_num)
  exact_mod_cast hle

/-- Witness for C1 on a concrete two-entry table and query color. -/
theorem find_closest_color_min_witness :
    tableCex ≠ [] ∧ InRange (10, 10, 10) ∧ (∀ kv ∈ tableCex, InRange kv.1) ∧
    ∃ kv ∈ tableCex, find_closest_color tableCex (10, 10, 10) = kv.2 ∧
      ∀ kv' ∈ tableCex,
        ¬ Real.sqrt ((colorDistSq (10, 10, 10) kv'.1 : ℚ) : ℝ) <
            Real.sqrt ((colorDistSq (10, 10, 10) kv.1 : ℚ) : ℝ) :=
  ⟨by decide, by decide, by decide,
    find_closest_color_min tableCex (10, 10, 10) (by decide) (by decide) (by decide)⟩

/-- C2 counterexample: on the black/gray table over an all-black 1×1 image,
the 1×1 grid's only cell (0, 0) matches block a, yet block b is also in the
produced BlockPalette, so not every BlockPalette member is some cell's
matched identifier. -/
theorem blockPalette_unmatched_cex :
    blockPalette tableCex = ["blk:a", "blk:b"] ∧
    cellEntry tableCex pixBlack 1 1 1 1 0 0 = ("blk:a", 0) ∧
    indexGrid tableCex (blockPalette tableCex) pixBlack 1 1 1 1 = [[0]] := by
  decide

/-- C2 amended: the output BlockPalette is the deduplication of all block
identifiers of the merged palette table, not only the matched ones; it is a
superset of the matched identifiers, and every cell's matched identifier does
appear in it. -/
theorem blockPalette_amended (table : Table) (pix : Pix) (ow oh w h : ℕ)
    (ht : table ≠ []) :
    blockPalette table = (table.map entryId).dedup ∧
    ∀ x y, x < w → y < h →
      (cellEntry table pix ow oh w h x y).1 ∈ blockPalette table :=
  ⟨rfl, fun x y _ _ => cellEntry_id_mem_blockPalette table pix ow oh w h x y ht⟩

/-- Witness for the amended C2 on a concrete table, image and grid size. -/
theorem blockPalette_amended_witness :
    tableCex ≠ [] ∧
    (blockPalette tableCex = (tableCex.map entryId).dedup ∧
      ∀ x y, x < 1 → y < 1 →
        (cellEntry tableCex pixBlack 2 2 1 1 x y).1 ∈ blockPalette tableCex) :=
  ⟨by decide, blockPalette_amended tableCex pixBlack 2 2 1 1 (by decide)⟩

/-- A fold over files none of which is selected leaves the accumulator dict
unchanged. -/
theorem foldl_load_skip (selected : List String) :
    ∀ (l : List (String × Table)) (acc : Table), (∀ f ∈ l, f.1 ∉ selected) →
      l.foldl (fun acc f => if f.1 ∈ selected then f.2.foldl dictInsert acc else acc) acc
        = acc := by
  intro l
  induction l with
  | nil => intro acc _; rfl
  | cons f l ih =>
    intro acc hsel
    have hf : f.1 ∉ selected := hsel f (List.mem_cons_self f l)
    simp only [List.foldl_cons, if_neg hf]
    exact ih acc fun g hg => hsel g (List.mem_cons_of_mem f hg)

/-- C8: when none of the available palette files is among the selected names,
the merged table comes out empty, and `convert` aborts before serialization,
producing no output structure. -/
theorem convert_empty_palette (files : List (String × Table))
    (selected : List String) (pix : Pix) (ow oh : ℕ) (size : Option (ℤ × ℤ))
    (hnone : ∀ f ∈ files, f.1 ∉ selected) :
    load_block_mappings files selected = [] ∧
    convert files selected pix ow oh size = none := by
  have hload : load_block_mappings files selected = [] :=
    foldl_load_skip selected files [] hnone
  exact ⟨hload, by simp [convert, hload]⟩

/-- Witness for C8: selecting a name matched by no palette file. -/
theorem convert_empty_palette_witness :
    (∀ f ∈ [("wool", tableCex)], f.1 ∉ ["missing"]) ∧
    (load_block_mappings [("wool", tableCex)] ["missing"] = [] ∧
      convert [("wool", tableCex)] ["missing"] pixBlack 4 4 none = none) :=
  ⟨by decide, convert_empty_palette [("wool", tableCex)] ["missing"] pixBlack 4 4 none
    (by decide)⟩

/-- C10: `set_size` raises non-positive requested dimensions to 1, so the
effective output dimensions of every conversion reaching grid construction
are at least 1 in both axes. -/
theorem set_size_spec (w h : ℤ) :
    set_size w h = (max 1 w, max 1 h) ∧
    1 ≤ (set_size w h).1 ∧ 1 ≤ (set_size w h).2 ∧
    ∀ (ow oh : ℕ) (size : Option (ℤ × ℤ)),
      1 ≤ (effectiveSize ow oh size).1 ∧ 1 ≤ (effectiveSize ow oh size).2 := by
  refine ⟨rfl, le_max_left 1 w, le_max_left 1 h, fun ow oh size => ?_⟩
  cases size with
  | none => exact ⟨le_max_left _ _, le_max_left _ _⟩
  | some s => exact ⟨le_max_left _ _, le_max_left _ _⟩

/-- C9 counterexample: two admissible enumerations of the same set of block
identifiers (both permutations of the deduplicated list, as two fresh Python
processes with different string hash seeds can produce) yield different
IndexGrid contents for the same table and image. -/
theorem determinism_cex :
    (["blk:a", "blk:b"] : List String).Perm (blockPalette tableCex) ∧
    (["blk:b", "blk:a"] : List String).Perm (blockPalette tableCex) ∧
    indexGrid tableCex ["blk:a", "blk:b"] pixBlack 1 1 1 1 ≠
      indexGrid tableCex ["blk:b", "blk:a"] pixBlack 1 1 1 1 := by
  decide

/-- C9 amended: determinism holds up to the enumeration order of the block
palette set: any two admissible palette enumerations are permutations of one
another, and decoding every cell's stored index through its own palette gives
the same block identifier, the one deterministically matched for that cell
(the aux grid does not depend on the enumeration at all). -/
theorem determinism_amended (table : Table) (pix : Pix) (ow oh w h : ℕ)
    (p1 p2 : List String) (ht : table ≠ [])
    (hp1 : p1.Perm (blockPalette table)) (hp2 : p2.Perm (blockPalette table)) :
    p1.Perm p2 ∧
    ∀ x y, x < w → y < h →
      p1[cellIndex table p1 pix ow oh w h x y]? =
          some (cellEntry table pix ow oh w h x y).1 ∧
      p2[cellIndex table p2 pix ow oh w h x y]? =
          some (cellEntry table pix ow oh w h x y).1 := by
  refine ⟨hp1.trans hp2.symm, fun x y _ _ => ⟨?_, ?_⟩⟩
  · have hm : (cellEntry table pix ow oh w h x y).1 ∈ p1 :=
      hp1.mem_iff.mpr (cellEntry_id_mem_blockPalette table pix ow oh w h x y ht)
    rw [cellIndex, indexOfD, if_pos hm]
    exact List.getElem?_indexOf hm
  · have hm : (cellEntry table pix ow oh w h x y).1 ∈ p2 :=
      hp2.mem_iff.mpr (cellEntry_id_mem_blockPalette table pix ow oh w h x y ht)
    rw [cellIndex, indexOfD, if_pos hm]
    exact List.getElem?_indexOf hm

/-- Witness for the amended C9 on the concrete table and both enumerations. -/
theorem determinism_amended_witness :
    tableCex ≠ [] ∧
    ((["blk:a", "blk:b"] : List String).Perm ["blk:b", "blk:a"] ∧
      ∀ x y, x < 1 → y < 1 →
        (["blk:a", "blk:b"] : List String)[cellIndex tableCex ["blk:a", "blk:b"] pixBlack 1 1 1 1 x y]? =
            some (cellEntry tableCex pixBlack 1 1 1 1 x y).1 ∧
        (["blk:b", "blk:a"] : List String)[cellIndex tableCex ["blk:b", "blk:a"] pixBlack 1 1 1 1 x y]? =
            some (cellEntry tableCex pixBlack 1 1 1 1 x y).1) :=
  ⟨by decide, determinism_amended tableCex pixBlack 1 1 1 1 ["blk:a", "blk:b"]
    ["blk:b", "blk:a"] (by decide) (by decide) (by decide)⟩

/-- C6 counterexample: for a 100×200 source and a 100×188 request the
relative aspect difference exceeds 0.05 whichever ratio normalizes it, yet
the code returns the requested size unchanged, because its tolerance test is
on the absolute ratio difference 3/94 < 0.05. -/
theorem calculateBestSize_rel_cex :
    (1 / 20 : ℚ) < |(100 : ℚ) / 200 - (100 : ℚ) / 188| / ((100 : ℚ) / 200) ∧
    (1 / 20 : ℚ) < |(100 : ℚ) / 200 - (100 : ℚ) / 188| / ((100 : ℚ) / 188) ∧
    calculateBestSize 100 200 100 188 = (100, 188) := by
  have habs : |(100 : ℚ) / 200 - (100 : ℚ) / 188| = (100 : ℚ) / 188 - (100 : ℚ) / 200 := by
    rw [abs_of_neg (by norm_num)]
    ring
  exact ⟨by rw [habs]; norm_num, by rw [habs]; norm_num, by decide⟩

/-- `log2fuel` computes the floor of log2 when given at least n fuel. -/
theorem log2fuel_spec : ∀ (fuel n : ℕ), 1 ≤ n → n ≤ fuel →
    2 ^ log2fuel fuel n ≤ n ∧ n < 2 ^ (log2fuel fuel n + 1) := by
  intro fuel
  induction fuel with
  | zero => intro n h1 h2; exact absurd (h1.trans h2) (by decide)
  | succ fuel ih =>
    intro n h1 h2
    by_cases h : 2 ≤ n
    · have hrec := ih (n / 2) (by omega) (by omega)
      simp only [log2fuel, if_pos h]
      obtain ⟨ha, hb⟩ := hrec
      have he1 : 2 ^ (log2fuel fuel (n / 2) + 1) = 2 ^ log2fuel fuel (n / 2) * 2 :=
        pow_succ 2 _
      have he2 : 2 ^ (log2fuel fuel (n / 2) + 1 + 1) = 2 ^ (log2fuel fuel (n / 2) + 1) * 2 :=
        pow_succ 2 _
      omega
    · have hn : n = 1 := by omega
      subst hn
      norm_num [log2fuel, h]

/-- Characterization of the floor log2. -/
theorem log2n_spec (n : ℕ) (h1 : 1 ≤ n) :
    2 ^ log2n n ≤ n ∧ n < 2 ^ (log2n n + 1) :=
  log2fuel_spec n n h1 (le_refl n)

/-- A round-up decision forces the dropped part to be at least half an
ulp. -/
theorem roundUp_true_le (p s : ℕ) (sticky : Bool)
    (h : roundUp p s sticky = true) : 2 ^ (s - 1) ≤ p % 2 ^ s := by
  by_contra hc
  push_neg at hc
  unfold roundUp at h
  rw [if_neg (by omega), if_pos hc] at h
  exact Bool.false_ne_true h

/-- A round-down decision forces the dropped part to be at most half an
ulp. -/
theorem roundUp_false_le (p s : ℕ) (sticky : Bool)
    (h : roundUp p s sticky = false) : p % 2 ^ s ≤ 2 ^ (s - 1) := by
  by_contra hc
  push_neg at hc
  unfold roundUp at h
  rw [if_pos hc] at h
  exact absurd h (by decide)

/-- A round-down decision on an exact half-ulp tie forces the sticky flag
off. -/
theorem roundUp_false_tie (p s : ℕ) (sticky : Bool)
    (h : roundUp p s sticky = false) (htie : p % 2 ^ s = 2 ^ (s - 1)) :
    sticky = false := by
  cases sticky with
  | false => rfl
  | true =>
    exfalso
    unfold roundUp at h
    rw [if_neg (by omega), if_neg (by omega), if_pos rfl] at h
    exact absurd h (by decide)

/-- The overflow renormalization in `roundCore` preserves the value. -/
theorem roundCore_val (m1 s : ℕ) :
    rval (if m1 = 2 ^ 53 then (2 ^ 52, s + 1) else (m1, s)) = (m1 : ℚ) * 2 ^ s := by
  by_cases hov : m1 = 2 ^ 53
  · rw [if_pos hov, hov]
    simp only [rval]
    push_cast
    rw [pow_succ]
    ring
  · rw [if_neg hov]
    simp only [rval]

/-- The rounding core changes the value p (plus any sticky-consistent
fraction) by at most half a unit in the last kept place, 2^(s-1). -/
theorem roundCore_bounds (p s : ℕ) (sticky : Bool) (ρ : ℚ) (hs : 1 ≤ s)
    (hρ0 : 0 ≤ ρ) (hρ1 : ρ < 1) (hρf : sticky = false → ρ = 0) :
    (p : ℚ) + ρ - 2 ^ (s - 1) ≤ rval (roundCore p s sticky) ∧
    rval (roundCore p s sticky) ≤ (p : ℚ) + ρ + 2 ^ (s - 1) := by
  have hdm : 2 ^ s * (p / 2 ^ s) + p % 2 ^ s = p := Nat.div_add_mod p (2 ^ s)
  have hrlt : p % 2 ^ s < 2 ^ s := Nat.mod_lt _ (by positivity)
  have hQ : ((2 : ℚ)) ^ s * ((p / 2 ^ s : ℕ) : ℚ) + ((p % 2 ^ s : ℕ) : ℚ) = p := by
    exact_mod_cast hdm
  have hrQ : ((p % 2 ^ s : ℕ) : ℚ) < 2 ^ s := by exact_mod_cast hrlt
  have h2sQ : ((2 : ℚ)) ^ s = 2 * 2 ^ (s - 1) := by
    have h2s : (2 : ℕ) ^ s = 2 * 2 ^ (s - 1) := by
      conv_lhs => rw [show s = s - 1 + 1 by omega]
      rw [pow_succ]
      ring
    exact_mod_cast h2s
  have hhalf1 : (1 : ℚ) ≤ 2 ^ (s - 1) := by
    exact_mod_cast Nat.one_le_two_pow (n := s - 1)
  simp only [roundCore]
  cases hru : roundUp p s sticky with
  | true =>
    rw [if_pos rfl, roundCore_val]
    have hge : ((2 : ℚ)) ^ (s - 1) ≤ ((p % 2 ^ s : ℕ) : ℚ) := by
      exact_mod_cast roundUp_true_le p s sticky hru
    push_cast
    constructor <;> nlinarith [hQ, hrQ, h2sQ, hhalf1, hge, hρ0, hρ1]
  | false =>
    rw [if_neg Bool.false_ne_true, roundCore_val]
    have hle := roundUp_false_le p s sticky hru
    rcases lt_or_eq_of_le hle with hlt | htie
    · have hltQ : ((p % 2 ^ s : ℕ) : ℚ) < 2 ^ (s - 1) := by exact_mod_cast hlt
      have hr1 : ((p % 2 ^ s : ℕ) : ℚ) + 1 ≤ 2 ^ (s - 1) := by
        have : p % 2 ^ s + 1 ≤ 2 ^ (s - 1) := by omega
        exact_mod_cast this
      constructor <;> nlinarith [hQ, hrQ, h2sQ, hhalf1, hρ0, hρ1]
    · have hρz : ρ = 0 := hρf (roundUp_false_tie p s sticky hru htie)
      have htieQ : ((p % 2 ^ s : ℕ) : ℚ) = 2 ^ (s - 1) := by exact_mod_cast htie
      subst hρz
      constructor <;> nlinarith [hQ, h2sQ, hhalf1]

/-- IEEE rounding to 53 bits has relative error at most the unit roundoff:
the result lies within a factor (1 ± 2^-53) of the exact input p + ρ. -/
theorem roundTo53_bounds (p : ℕ) (sticky : Bool) (ρ : ℚ)
    (hρ0 : 0 ≤ ρ) (hρ1 : ρ < 1) (hρf : sticky = false → ρ = 0)
    (hbig : sticky = true → 2 ^ 53 ≤ p) :
    ((p : ℚ) + ρ) * (1 - feps) ≤ rval (roundTo53 p sticky) ∧
    rval (roundTo53 p sticky) ≤ ((p : ℚ) + ρ) * (1 + feps) := by
  have hfe : (0 : ℚ) < feps := by norm_num [feps]
  unfold roundTo53
  by_cases hk : log2n p ≤ 52
  · rw [if_pos hk]
    have hρz : ρ = 0 := by
      cases sticky with
      | false => exact hρf rfl
      | true =>
        exfalso
        have hp53 := hbig rfl
        have hp1 : 1 ≤ p := le_trans (by norm_num) hp53
        have hup := (log2n_spec p hp1).2
        have hle : 2 ^ (log2n p + 1) ≤ 2 ^ 53 :=
          pow_le_pow_right₀ (by norm_num) (by omega)
        omega
    subst hρz
    simp only [rval, pow_zero, mul_one, add_zero]
    have hp0 : (0 : ℚ) ≤ (p : ℚ) := Nat.cast_nonneg p
    constructor <;> nlinarith
  · rw [if_neg hk]
    have hp1 : 1 ≤ p := by
      by_contra hc
      have hp0 : p = 0 := by omega
      subst hp0
      exact hk (by norm_num [log2n, log2fuel])
    obtain ⟨hpl, hpu⟩ := log2n_spec p hp1
    have hs1 : 1 ≤ log2n p - 52 := by omega
    obtain ⟨hlo, hhi⟩ := roundCore_bounds p (log2n p - 52) sticky ρ hs1 hρ0 hρ1 hρf
    have hplQ : ((2 : ℚ)) ^ (log2n p - 52 - 1) * 2 ^ 53 ≤ p := by
      have hn : (2 : ℕ) ^ (log2n p - 52 - 1) * 2 ^ 53 = 2 ^ log2n p := by
        rw [← pow_add]
        congr 1
        omega
      have := hn ▸ hpl
      exact_mod_cast this
    have hhalf : ((2 : ℚ)) ^ (log2n p - 52 - 1) ≤ ((p : ℚ) + ρ) * feps := by
      rw [feps, mul_one_div, le_div_iff₀ (by norm_num : (0 : ℚ) < 2 ^ 53)]
      linarith
    constructor
    · calc ((p : ℚ) + ρ) * (1 - feps) = (p + ρ) - (p + ρ) * feps := by ring
        _ ≤ (p + ρ) - 2 ^ (log2n p - 52 - 1) := by linarith
        _ ≤ rval (roundCore p (log2n p - 52) sticky) := hlo
    · calc rval (roundCore p (log2n p - 52) sticky)
          ≤ (p + ρ) + 2 ^ (log2n p - 52 - 1) := hhi
        _ ≤ (p + ρ) + (p + ρ) * feps := by linarith
        _ = ((p : ℚ) + ρ) * (1 + feps) := by ring

/-- Model doubles have nonnegative values. -/
theorem fval_nonneg (f : ℕ × ℤ) : 0 ≤ fval f := by
  unfold fval
  positivity

/-- A model double with positive value has a positive mantissa. -/
theorem mantissa_pos_of_fval_pos (f : ℕ × ℤ) (h : 0 < fval f) : 1 ≤ f.1 := by
  by_contra hc
  have h0 : f.1 = 0 := by omega
  rw [fval, h0] at h
  simp at h

/-- The rounded quotient of `floatDiv` lies within a factor (1 ± 2^-53) of
the exact quotient n / d, stated multiplied through by d. -/
theorem floatDiv_bounds (n d : ℕ) (hn : 1 ≤ n) (hd : 1 ≤ d) :
    (n : ℚ) * (1 - feps) ≤ (d : ℚ) * fval (floatDiv n d) ∧
    (d : ℚ) * fval (floatDiv n d) ≤ (n : ℚ) * (1 + feps) := by
  have hnd : ¬(n = 0 ∨ d = 0) := by omega
  have hunfold : floatDiv n d =
      ((roundTo53 (n * 2 ^ (54 + log2n d) / d) (decide (n * 2 ^ (54 + log2n d) % d ≠ 0))).1,
        ((roundTo53 (n * 2 ^ (54 + log2n d) / d) (decide (n * 2 ^ (54 + log2n d) % d ≠ 0))).2 : ℤ)
          - (54 + (log2n d : ℤ))) := by
    simp only [floatDiv, if_neg hnd]
    push_cast
    rfl
  rw [hunfold]
  have hdm : d * (n * 2 ^ (54 + log2n d) / d) + n * 2 ^ (54 + log2n d) % d
      = n * 2 ^ (54 + log2n d) := Nat.div_add_mod _ d
  have hrd : n * 2 ^ (54 + log2n d) % d < d := Nat.mod_lt _ (by omega)
  have hq53 : 2 ^ 53 ≤ n * 2 ^ (54 + log2n d) / d := by
    have hdlt : d < 2 ^ (log2n d + 1) := (log2n_spec d hd).2
    have hmul : 2 ^ 53 * d ≤ n * 2 ^ (54 + log2n d) := by
      calc 2 ^ 53 * d ≤ 2 ^ 53 * 2 ^ (log2n d + 1) := Nat.mul_le_mul_left _ (by omega)
        _ = 2 ^ (54 + log2n d) := by rw [← pow_add]; congr 1; omega
        _ ≤ n * 2 ^ (54 + log2n d) := Nat.le_mul_of_pos_left _ (by omega)
    exact (Nat.le_div_iff_mul_le (by omega)).mpr hmul
  have hdQ : (0 : ℚ) < (d : ℚ) := by exact_mod_cast hd
  obtain ⟨hlo, hhi⟩ := roundTo53_bounds (n * 2 ^ (54 + log2n d) / d)
    (decide (n * 2 ^ (54 + log2n d) % d ≠ 0))
    (((n * 2 ^ (54 + log2n d) % d : ℕ) : ℚ) / d)
    (by positivity)
    (by rw [div_lt_one hdQ]; exact_mod_cast hrd)
    (by
      intro hfalse
      have hr0 : n * 2 ^ (54 + log2n d) % d = 0 := by
        have := of_decide_eq_false hfalse
        omega
      rw [hr0]
      simp)
    (fun _ => hq53)
  have hL : (0 : ℚ) < (2 : ℚ) ^ (54 + log2n d) := by positivity
  have hval : fval ((roundTo53 (n * 2 ^ (54 + log2n d) / d) (decide (n * 2 ^ (54 + log2n d) % d ≠ 0))).1,
      ((roundTo53 (n * 2 ^ (54 + log2n d) / d) (decide (n * 2 ^ (54 + log2n d) % d ≠ 0))).2 : ℤ)
        - (54 + (log2n d : ℤ))) * (2 : ℚ) ^ (54 + log2n d)
      = rval (roundTo53 (n * 2 ^ (54 + log2n d) / d) (decide (n * 2 ^ (54 + log2n d) % d ≠ 0))) := by
    simp only [fval, rval]
    have hcast : ((54 : ℤ) + (log2n d : ℤ)) = ((54 + log2n d : ℕ) : ℤ) := by
      push_cast
      ring
    rw [zpow_sub₀ (by norm_num : (2 : ℚ) ≠ 0), hcast, zpow_natCast, zpow_natCast]
    field_simp
  have hkey : (d : ℚ) * (((n * 2 ^ (54 + log2n d) / d : ℕ) : ℚ)
      + ((n * 2 ^ (54 + log2n d) % d : ℕ) : ℚ) / d) = (n : ℚ) * 2 ^ (54 + log2n d) := by
    field_simp
    rw [Nat.mul_comm d] at hdm
    exact_mod_cast hdm
  constructor
  · rw [← mul_le_mul_right hL]
    calc (n : ℚ) * (1 - feps) * 2 ^ (54 + log2n d)
        = ((n : ℚ) * 2 ^ (54 + log2n d)) * (1 - feps) := by ring
      _ = (d : ℚ) * ((((n * 2 ^ (54 + log2n d) / d : ℕ) : ℚ)
            + ((n * 2 ^ (54 + log2n d) % d : ℕ) : ℚ) / d) * (1 - feps)) := by
          rw [← hkey]; ring
      _ ≤ (d : ℚ) * rval (roundTo53 (n * 2 ^ (54 + log2n d) / d)
            (decide (n * 2 ^ (54 + log2n d) % d ≠ 0))) := by
          exact mul_le_mul_of_nonneg_left hlo hdQ.le
      _ = (d : ℚ) * fval _ * 2 ^ (54 + log2n d) := by rw [← hval]; ring
  · rw [← mul_le_mul_right hL]
    calc (d : ℚ) * fval _ * 2 ^ (54 + log2n d)
        = (d : ℚ) * rval (roundTo53 (n * 2 ^ (54 + log2n d) / d)
            (decide (n * 2 ^ (54 + log2n d) % d ≠ 0))) := by rw [← hval]; ring
      _ ≤ (d : ℚ) * ((((n * 2 ^ (54 + log2n d) / d : ℕ) : ℚ)
            + ((n * 2 ^ (54 + log2n d) % d : ℕ) : ℚ) / d) * (1 + feps)) := by
          exact mul_le_mul_of_nonneg_left hhi hdQ.le
      _ = ((n : ℚ) * 2 ^ (54 + log2n d)) * (1 + feps) := by rw [← hkey]; ring
      _ = (n : ℚ) * (1 + feps) * 2 ^ (54 + log2n d) := by ring

/-- The value of a rounded float quotient of positive naturals is
positive. -/
theorem floatDiv_pos (n d : ℕ) (hn : 1 ≤ n) (hd : 1 ≤ d) :
    0 < fval (floatDiv n d) := by
  obtain ⟨h1, -⟩ := floatDiv_bounds n d hn hd
  have hdQ : (0 : ℚ) < (d : ℚ) := by exact_mod_cast hd
  have hnQ : (1 : ℚ) ≤ (n : ℚ) := by exact_mod_cast hn
  have hfe : feps < 1 := by norm_num [feps]
  rcases eq_or_lt_of_le (fval_nonneg (floatDiv n d)) with heq | hlt
  · exfalso
    rw [← heq] at h1
    nlinarith
  · exact hlt

/-- Rounding an exact natural (no sticky bit) also obeys the unit-roundoff
bounds. -/
theorem roundTo53_exact_bounds (p : ℕ) :
    (p : ℚ) * (1 - feps) ≤ rval (roundTo53 p false) ∧
    rval (roundTo53 p false) ≤ (p : ℚ) * (1 + feps) := by
  obtain ⟨h1, h2⟩ := roundTo53_bounds p false 0 le_rfl (by norm_num) (fun _ => rfl)
    (fun h => absurd h (by decide))
  constructor
  · linarith
  · linarith

/-- Aligning a mantissa down to a smaller exponent preserves the value. -/
theorem alignVal (f : ℕ × ℤ) (e : ℤ) (he : e ≤ f.2) :
    ((f.1 * 2 ^ (f.2 - e).toNat : ℕ) : ℚ) * (2 : ℚ) ^ e = fval f := by
  have h2 : ((f.2 - e).toNat : ℤ) + e = f.2 := by omega
  rw [fval]
  push_cast
  rw [mul_assoc, ← zpow_natCast (2 : ℚ) (f.2 - e).toNat,
    ← zpow_add₀ (by norm_num : (2 : ℚ) ≠ 0), h2]

/-- `floatDivF` (nat over double) obeys the unit-roundoff bounds, stated
multiplied through by the divisor value. -/
theorem floatDivF_bounds (a : ℕ) (f : ℕ × ℤ) (ha : 1 ≤ a) (hf : 1 ≤ f.1) :
    (a : ℚ) * (1 - feps) ≤ fval f * fval (floatDivF a f) ∧
    fval f * fval (floatDivF a f) ≤ (a : ℚ) * (1 + feps) := by
  have hkey : fval f * fval (floatDivF a f) = (f.1 : ℚ) * fval (floatDiv a f.1) := by
    simp only [fval, floatDivF]
    rw [zpow_sub₀ (by norm_num : (2 : ℚ) ≠ 0)]
    have h2 : (2 : ℚ) ^ f.2 ≠ 0 := zpow_ne_zero _ (by norm_num)
    field_simp
    ring
  rw [hkey]
  exact floatDiv_bounds a f.1 ha hf

/-- `floatMul` (nat times double) obeys the unit-roundoff bounds. -/
theorem floatMul_bounds (a : ℕ) (f : ℕ × ℤ) :
    (a : ℚ) * fval f * (1 - feps) ≤ fval (floatMul a f) ∧
    fval (floatMul a f) ≤ (a : ℚ) * fval f * (1 + feps) := by
  obtain ⟨h1, h2⟩ := roundTo53_exact_bounds (a * f.1)
  have hp : (0 : ℚ) < (2 : ℚ) ^ f.2 := by positivity
  have hkey : fval (floatMul a f) = rval (roundTo53 (a * f.1) false) * (2 : ℚ) ^ f.2 := by
    simp only [fval, rval, floatMul]
    rw [zpow_add₀ (by norm_num : (2 : ℚ) ≠ 0),
      zpow_natCast (2 : ℚ) (roundTo53 (a * f.1) false).2]
    ring
  rw [hkey]
  constructor
  · calc (a : ℚ) * fval f * (1 - feps)
        = ((a * f.1 : ℕ) : ℚ) * (1 - feps) * 2 ^ f.2 := by rw [fval]; push_cast; ring
      _ ≤ rval (roundTo53 (a * f.1) false) * 2 ^ f.2 :=
          mul_le_mul_of_nonneg_right h1 hp.le
  · calc rval (roundTo53 (a * f.1) false) * 2 ^ f.2
        ≤ ((a * f.1 : ℕ) : ℚ) * (1 + feps) * 2 ^ f.2 :=
          mul_le_mul_of_nonneg_right h2 hp.le
      _ = (a : ℚ) * fval f * (1 + feps) := by rw [fval]; push_cast; ring

/-- The aligned difference `absSubP`, rescaled by the common exponent, is
the exact absolute difference of the two values. -/
theorem absSubP_val (f g : ℕ × ℤ) :
    ((absSubP f g : ℕ) : ℚ) * (2 : ℚ) ^ (min f.2 g.2) = |fval f - fval g| := by
  have hAf := alignVal f (min f.2 g.2) (min_le_left _ _)
  have hAg := alignVal g (min f.2 g.2) (min_le_right _ _)
  have hp : (0 : ℚ) < (2 : ℚ) ^ (min f.2 g.2) := by positivity
  simp only [absSubP]
  rw [Nat.cast_sub (min_le_max), Nat.cast_max, Nat.cast_min, max_sub_min_eq_abs,
    ← abs_of_pos hp, ← abs_mul, sub_mul, hAf, hAg, abs_sub_comm]

/-- `floatAbsSub` obeys the unit-roundoff bounds around the exact absolute
difference. -/
theorem floatAbsSub_bounds (f g : ℕ × ℤ) :
    |fval f - fval g| * (1 - feps) ≤ fval (floatAbsSub f g) ∧
    fval (floatAbsSub f g) ≤ |fval f - fval g| * (1 + feps) := by
  obtain ⟨h1, h2⟩ := roundTo53_exact_bounds (absSubP f g)
  have hp : (0 : ℚ) < (2 : ℚ) ^ (min f.2 g.2) := by positivity
  have hkey : fval (floatAbsSub f g)
      = rval (roundTo53 (absSubP f g) false) * (2 : ℚ) ^ (min f.2 g.2) := by
    simp only [fval, rval, floatAbsSub, absSubP]
    rw [zpow_add₀ (by norm_num : (2 : ℚ) ≠ 0)]
    rw [zpow_natCast]
    ring
  have habs := absSubP_val f g
  rw [hkey, ← habs]
  constructor
  · calc ((absSubP f g : ℕ) : ℚ) * 2 ^ (min f.2 g.2) * (1 - feps)
        = ((absSubP f g : ℕ) : ℚ) * (1 - feps) * 2 ^ (min f.2 g.2) := by ring
      _ ≤ rval (roundTo53 (absSubP f g) false) * 2 ^ (min f.2 g.2) :=
          mul_le_mul_of_nonneg_right h1 hp.le
  · calc rval (roundTo53 (absSubP f g) false) * 2 ^ (min f.2 g.2)
        ≤ ((absSubP f g : ℕ) : ℚ) * (1 + feps) * 2 ^ (min f.2 g.2) :=
          mul_le_mul_of_nonneg_right h2 hp.le
      _ = ((absSubP f g : ℕ) : ℚ) * 2 ^ (min f.2 g.2) * (1 + feps) := by ring

/-- The model comparison is exact on values. -/
theorem fltLtB_iff (f g : ℕ × ℤ) : fltLtB f g = true ↔ fval f < fval g := by
  have hp : (0 : ℚ) < (2 : ℚ) ^ (min f.2 g.2) := by positivity
  simp only [fltLtB, decide_eq_true_eq]
  rw [← alignVal f (min f.2 g.2) (min_le_left _ _),
    ← alignVal g (min f.2 g.2) (min_le_right _ _), mul_lt_mul_right hp, Nat.cast_lt]

/-- Truncation of a nonnegative double bounded by n stays below n. -/
theorem floatTruncNat_lt (f : ℕ × ℤ) (n : ℕ) (h : fval f < n) : floatTruncNat f < n := by
  unfold floatTruncNat
  split_ifs with h0
  · have hval : fval f = ((f.1 * 2 ^ f.2.toNat : ℕ) : ℚ) := by
      rw [fval]
      push_cast
      rw [← zpow_natCast (2 : ℚ) f.2.toNat, Int.toNat_of_nonneg h0]
    rw [hval] at h
    exact_mod_cast h
  · have hp : (0 : ℚ) < (2 : ℚ) ^ ((-f.2).toNat) := by positivity
    have hval : fval f * (2 : ℚ) ^ ((-f.2).toNat) = (f.1 : ℚ) := by
      rw [fval, ← zpow_natCast (2 : ℚ) (-f.2).toNat,
        Int.toNat_of_nonneg (by omega : (0 : ℤ) ≤ -f.2), mul_assoc,
        ← zpow_add₀ (by norm_num : (2 : ℚ) ≠ 0)]
      simp
    rw [Nat.div_lt_iff_lt_mul (Nat.two_pow_pos _)]
    have hQ : (f.1 : ℚ) < (n : ℚ) * (2 : ℚ) ^ ((-f.2).toNat) := by
      rw [← hval]
      exact mul_lt_mul_of_pos_right h hp
    exact_mod_cast hQ

/-- The double literal 0.05 lies strictly between 1/20 and 1/19. -/
theorem f005_bounds : 1 / 20 < fval f005 ∧ fval f005 < 1 / 19 := by
  have hval : fval f005 = (3602879701896397 : ℚ) / 2 ^ 56 := by
    simp only [fval, f005]
    rw [show ((-56 : ℤ)) = -((56 : ℕ) : ℤ) by norm_num, zpow_neg, zpow_natCast]
    ring
  rw [hval]
  norm_num

/-- When the float tolerance test passes, the requested size is returned. -/
theorem calculateBestSize_eq_close (ow oh tw th : ℕ)
    (h : fltLtB (floatAbsSub (floatDiv ow oh) (floatDiv tw th)) f005 = true) :
    calculateBestSize ow oh tw th = (tw, th) := by
  simp only [calculateBestSize]
  rw [if_pos h]

/-- Far originals with larger aspect quotient: the height is recomputed. -/
theorem calculateBestSize_eq_tall (ow oh tw th : ℕ)
    (h1 : fltLtB (floatAbsSub (floatDiv ow oh) (floatDiv tw th)) f005 = false)
    (h2 : fltLtB (floatDiv tw th) (floatDiv ow oh) = true) :
    calculateBestSize ow oh tw th
      = (tw, floatTruncNat (floatDivF tw (floatDiv ow oh))) := by
  simp only [calculateBestSize]
  rw [if_neg (by rw [h1]; decide), if_pos h2]

/-- Far originals with smaller aspect quotient: the width is recomputed. -/
theorem calculateBestSize_eq_wide (ow oh tw th : ℕ)
    (h1 : fltLtB (floatAbsSub (floatDiv ow oh) (floatDiv tw th)) f005 = false)
    (h2 : fltLtB (floatDiv tw th) (floatDiv ow oh) = false) :
    calculateBestSize ow oh tw th
      = (floatTruncNat (floatMul th (floatDiv ow oh)), th) := by
  simp only [calculateBestSize]
  rw [if_neg (by rw [h1]; decide), if_neg (by rw [h2]; decide)]

/-- C6: calculate_best_ratio keeps the requested size exactly when the
binary64 test `abs(ow/oh - tw/th) < 0.05` succeeds; when it fails (the
double absolute difference of the aspect quotients reaches the double
0.05) the recommended size differs from the request, because the
recomputed dimension is strictly smaller than the requested one. -/
theorem calculateBestSize_amended (ow oh tw th : ℕ)
    (how1 : 1 ≤ ow) (_how2 : ow ≤ 65536) (hoh1 : 1 ≤ oh) (_hoh2 : oh ≤ 65536)
    (htw1 : 1 ≤ tw) (htw2 : tw ≤ 65536) (hth1 : 1 ≤ th) (_hth2 : th ≤ 65536) :
    (fltLtB (floatAbsSub (floatDiv ow oh) (floatDiv tw th)) f005 = true →
      calculateBestSize ow oh tw th = (tw, th)) ∧
    (fltLtB (floatAbsSub (floatDiv ow oh) (floatDiv tw th)) f005 = false →
      calculateBestSize ow oh tw th ≠ (tw, th)) := by
  constructor
  · intro h1
    exact calculateBestSize_eq_close ow oh tw th h1
  · intro h1
    have hfn : feps = 1 / 9007199254740992 := by norm_num [feps]
    have hns : fval f005 ≤ fval (floatAbsSub (floatDiv ow oh) (floatDiv tw th)) := by
      rw [← not_lt, ← fltLtB_iff, h1]
      decide
    have habs := (floatAbsSub_bounds (floatDiv ow oh) (floatDiv tw th)).2
    have hf005 := f005_bounds.1
    have hgap : 1 / 21 ≤ |fval (floatDiv ow oh) - fval (floatDiv tw th)| := by
      rw [hfn] at habs
      linarith
    have hOpos : 0 < fval (floatDiv ow oh) := floatDiv_pos ow oh how1 hoh1
    have hm1 : 1 ≤ (floatDiv ow oh).1 := mantissa_pos_of_fval_pos _ hOpos
    have hTlo := (floatDiv_bounds tw th htw1 hth1).1
    have hThi := (floatDiv_bounds tw th htw1 hth1).2
    have hthQ : (1 : ℚ) ≤ (th : ℚ) := by exact_mod_cast hth1
    have htwQ : (tw : ℚ) ≤ 65536 := by exact_mod_cast htw2
    by_cases h2 : fltLtB (floatDiv tw th) (floatDiv ow oh) = true
    · have hTO : fval (floatDiv tw th) < fval (floatDiv ow oh) := (fltLtB_iff _ _).mp h2
      have hgap2 : fval (floatDiv tw th) + 1 / 21 ≤ fval (floatDiv ow oh) := by
        rw [abs_of_pos (by linarith)] at hgap
        linarith
      obtain ⟨-, hFhi⟩ := floatDivF_bounds tw (floatDiv ow oh) htw1 hm1
      have hb : (th : ℚ) * (fval (floatDiv tw th) + 1 / 21)
          ≤ (th : ℚ) * fval (floatDiv ow oh) :=
        mul_le_mul_of_nonneg_left hgap2 (by linarith)
      have hprod : fval (floatDiv ow oh) * fval (floatDivF tw (floatDiv ow oh))
          < fval (floatDiv ow oh) * (th : ℚ) := by
        rw [hfn] at hFhi hTlo
        nlinarith
      have hlt : fval (floatDivF tw (floatDiv ow oh)) < (th : ℚ) :=
        lt_of_mul_lt_mul_left hprod hOpos.le
      have htr := floatTruncNat_lt (floatDivF tw (floatDiv ow oh)) th hlt
      rw [calculateBestSize_eq_tall ow oh tw th h1 h2]
      intro hc
      have hsnd : floatTruncNat (floatDivF tw (floatDiv ow oh)) = th :=
        congrArg Prod.snd hc
      omega
    · have h2f : fltLtB (floatDiv tw th) (floatDiv ow oh) = false := by
        cases hb : fltLtB (floatDiv tw th) (floatDiv ow oh)
        · rfl
        · exact absurd hb h2
      have hOT : ¬ fval (floatDiv tw th) < fval (floatDiv ow oh) := by
        rw [← fltLtB_iff, h2f]
        decide
      have hgap2 : fval (floatDiv ow oh) ≤ fval (floatDiv tw th) - 1 / 21 := by
        rw [abs_sub_comm, abs_of_nonneg (by push_neg at hOT; linarith)] at hgap
        linarith
      obtain ⟨-, hMhi⟩ := floatMul_bounds th (floatDiv ow oh)
      have hb : (th : ℚ) * fval (floatDiv ow oh)
          ≤ (th : ℚ) * (fval (floatDiv tw th) - 1 / 21) :=
        mul_le_mul_of_nonneg_left hgap2 (by linarith)
      have hMtw : fval (floatMul th (floatDiv ow oh)) < (tw : ℚ) := by
        rw [hfn] at hMhi hThi
        nlinarith
      have htr := floatTruncNat_lt (floatMul th (floatDiv ow oh)) tw hMtw
      rw [calculateBestSize_eq_wide ow oh tw th h1 h2f]
      intro hc
      have hfst : floatTruncNat (floatMul th (floatDiv ow oh)) = tw :=
        congrArg Prod.fst hc
      omega

/-- Witness for C6 at the spec's 200x200 source with request 100x50: the
aspect difference 0.5 - 2.0 fails the 0.05 test and the recommendation
differs from the request. -/
theorem calculateBestSize_amended_witness :
    (1 ≤ 200) ∧ (200 ≤ 65536) ∧ (1 ≤ 100) ∧ (100 ≤ 65536) ∧
    (1 ≤ 50) ∧ (50 ≤ 65536) ∧
    calculateBestSize 200 200 100 50 ≠ (100, 50) := by
  refine ⟨by decide, by decide, by decide, by decide, by decide, by decide, ?_⟩
  exact (calculateBestSize_amended 200 200 100 50 (by decide) (by decide) (by decide)
    (by decide) (by decide) (by decide) (by decide) (by decide)).2 (by decide)

/-- A list of lists with uniform row length w flattens to w times as many
elements. -/
theorem flatten_length_of_uniform {α : Type} (w : ℕ) (l : List (List α))
    (hw : ∀ row ∈ l, row.length = w) : l.flatten.length = w * l.length := by
  induction l with
  | nil => simp
  | cons r t ih =>
    rw [List.flatten_cons, List.length_append, hw r (List.mem_cons_self r t),
      ih fun g hg => hw g (List.mem_cons_of_mem r hg), List.length_cons]
    ring

/-- Element (y, x) of the flattening of a list of uniform rows of length w
sits at offset y * w + x. -/
theorem getElem?_flatten_uniform {α : Type} (w : ℕ) :
    ∀ (l : List (List α)) (y x : ℕ), (∀ row ∈ l, row.length = w) → x < w →
      l.flatten[y * w + x]? = l[y]?.bind fun row => row[x]? := by
  intro l
  induction l with
  | nil => intro y x _ _; simp
  | cons r t ih =>
    intro y x hw hx
    have hr : r.length = w := hw r (List.mem_cons_self r t)
    cases y with
    | zero =>
      rw [List.flatten_cons, Nat.zero_mul, Nat.zero_add,
        List.getElem?_append_left (by rw [hr]; exact hx)]
      simp
    | succ y =>
      rw [List.flatten_cons,
        List.getElem?_append_right (by rw [hr, Nat.succ_mul]; omega)]
      have harith : (y + 1) * w + x - r.length = y * w + x := by
        rw [hr, Nat.succ_mul]; omega
      rw [harith, ih y x (fun g hg => hw g (List.mem_cons_of_mem r hg)) hx]
      simp

/-- Every stored palette index points inside the block palette. -/
theorem cellIndex_lt (table : Table) (pix : Pix) (ow oh w h x y : ℕ)
    (ht : table ≠ []) :
    cellIndex table (blockPalette table) pix ow oh w h x y <
      (blockPalette table).length := by
  have hm := cellEntry_id_mem_blockPalette table pix ow oh w h x y ht
  rw [cellIndex, indexOfD, if_pos hm]
  exact List.indexOf_lt_length.mpr hm

/-- The in-grid cell indices are recoverable from the flattened BlockData at
offset y * w + x. -/
theorem indexGrid_flatten_getElem (table : Table) (palette : List String)
    (pix : Pix) (ow oh w h x y : ℕ) (hx : x < w) (hy : y < h) :
    (indexGrid table palette pix ow oh w h).flatten[y * w + x]? =
      some (cellIndex table palette pix ow oh w h x y) := by
  rw [getElem?_flatten_uniform w _ y x ?hw hx]
  case hw =>
    intro row hrow
    unfold indexGrid at hrow
    obtain ⟨y', -, rfl⟩ := List.mem_map.mp hrow
    simp
  unfold indexGrid
  simp [List.getElem?_range hy, List.getElem?_range hx]

/-- Membership in the serialized Palette compound is position in the block
palette sequence. -/
theorem saveSchem_palette_mem (palette : List String) (grid : List (List ℕ))
    (w h : ℕ) (name : String) (i : ℕ) :
    (name, i) ∈ (saveSchem palette grid w h).palette ↔ palette[i]? = some name := by
  show (name, i) ∈ palette.enum.map (fun p => (p.2, p.1)) ↔ _
  rw [List.mem_map]
  constructor
  · rintro ⟨⟨j, s⟩, hp, heq⟩
    simp only [Prod.mk.injEq] at heq
    obtain ⟨h1, h2⟩ := heq
    subst h1
    subst h2
    exact List.mk_mem_enum_iff_getElem?.mp hp
  · intro hget
    exact ⟨(i, name), List.mk_mem_enum_iff_getElem?.mpr hget, rfl⟩

/-- `toShort` is the identity on the Short range. -/
theorem toShort_eq_of_lt (n : ℕ) (hn : n < 32768) : toShort n = n := by
  unfold toShort
  omega

/-- `toByte` is the identity below the int8 wrap point. -/
theorem toByte_eq_of_lt (n : ℕ) (hn : n < 128) : toByte n = n := by
  unfold toByte
  omega

/-- C4: for a non-empty merged table, IndexGrid and AuxGrid each consist of h
rows (y outer) of w cells (x inner), hence w * h cells in total, and every
stored index is strictly below the BlockPalette length. -/
theorem grid_shape (table : Table) (pix : Pix) (ow oh w h : ℕ) (ht : table ≠ []) :
    (indexGrid table (blockPalette table) pix ow oh w h).length = h ∧
    (∀ row ∈ indexGrid table (blockPalette table) pix ow oh w h, row.length = w) ∧
    (indexGrid table (blockPalette table) pix ow oh w h).flatten.length = w * h ∧
    (auxGrid table pix ow oh w h).length = h ∧
    (∀ row ∈ auxGrid table pix ow oh w h, row.length = w) ∧
    (auxGrid table pix ow oh w h).flatten.length = w * h ∧
    (∀ x y, x < w → y < h →
      (indexGrid table (blockPalette table) pix ow oh w h)[y]?.bind (fun row => row[x]?) =
        some (cellIndex table (blockPalette table) pix ow oh w h x y)) ∧
    (∀ x y, x < w → y < h →
      (auxGrid table pix ow oh w h)[y]?.bind (fun row => row[x]?) =
        some (cellEntry table pix ow oh w h x y).2) ∧
    ∀ row ∈ indexGrid table (blockPalette table) pix ow oh w h, ∀ i ∈ row,
      i < (blockPalette table).length := by
  have hrows : ∀ row ∈ indexGrid table (blockPalette table) pix ow oh w h,
      row.length = w := by
    intro row hrow
    unfold indexGrid at hrow
    obtain ⟨y, -, rfl⟩ := List.mem_map.mp hrow
    simp
  have hrows2 : ∀ row ∈ auxGrid table pix ow oh w h, row.length = w := by
    intro row hrow
    unfold auxGrid at hrow
    obtain ⟨y, -, rfl⟩ := List.mem_map.mp hrow
    simp
  refine ⟨by simp [indexGrid], hrows, ?_, by simp [auxGrid], hrows2, ?_, ?_, ?_, ?_⟩
  · rw [flatten_length_of_uniform w _ hrows]
    simp [indexGrid]
  · rw [flatten_length_of_uniform w _ hrows2]
    simp [auxGrid]
  · intro x y hx hy
    simp [indexGrid, List.getElem?_range hy, List.getElem?_range hx]
  · intro x y hx hy
    simp [auxGrid, List.getElem?_range hy, List.getElem?_range hx]
  · intro row hrow i hi
    unfold indexGrid at hrow
    obtain ⟨y, -, rfl⟩ := List.mem_map.mp hrow
    obtain ⟨x, -, rfl⟩ := List.mem_map.mp hi
    exact cellIndex_lt table pix ow oh w h x y ht

/-- Witness for C4 on a concrete table, image and 1×1 grid. -/
theorem grid_shape_witness :
    tableCex ≠ [] ∧
    ((indexGrid tableCex (blockPalette tableCex) pixBlack 2 2 1 1).length = 1 ∧
      (∀ row ∈ indexGrid tableCex (blockPalette tableCex) pixBlack 2 2 1 1,
        row.length = 1) ∧
      (indexGrid tableCex (blockPalette tableCex) pixBlack 2 2 1 1).flatten.length
          = 1 * 1 ∧
      (auxGrid tableCex pixBlack 2 2 1 1).length = 1 ∧
      (∀ row ∈ auxGrid tableCex pixBlack 2 2 1 1, row.length = 1) ∧
      (auxGrid tableCex pixBlack 2 2 1 1).flatten.length = 1 * 1 ∧
      (∀ x y, x < 1 → y < 1 →
        (indexGrid tableCex (blockPalette tableCex) pixBlack 2 2 1 1)[y]?.bind (fun row => row[x]?) =
          some (cellIndex tableCex (blockPalette tableCex) pixBlack 2 2 1 1 x y)) ∧
      (∀ x y, x < 1 → y < 1 →
        (auxGrid tableCex pixBlack 2 2 1 1)[y]?.bind (fun row => row[x]?) =
          some (cellEntry tableCex pixBlack 2 2 1 1 x y).2) ∧
      ∀ row ∈ indexGrid tableCex (blockPalette tableCex) pixBlack 2 2 1 1,
        ∀ i ∈ row, i < (blockPalette tableCex).length) :=
  ⟨by decide, grid_shape tableCex pixBlack 2 2 1 1 (by decide)⟩

/-- C5: the serialized schem structure carries Version 2, DataVersion 3100,
Short dimensions Width = w, Height = 1, Length = h, a zero 3-integer Offset,
a Palette table mapping each BlockPalette member to its position, BlockData
equal to IndexGrid flattened with y outer and x inner (entry y * w + x is
the signed byte of cell (x, y)'s index — the identity under the int8 bound
of at most 128 palette entries), and an empty BlockEntities list. -/
theorem saveSchem_spec (table : Table) (pix : Pix) (ow oh w h : ℕ)
    (ht : table ≠ []) (hws : w < 32768) (hhs : h < 32768)
    (hpal : (blockPalette table).length ≤ 128) :
    (saveSchem (blockPalette table) (indexGrid table (blockPalette table) pix ow oh w h) w h).version = 2 ∧
    (saveSchem (blockPalette table) (indexGrid table (blockPalette table) pix ow oh w h) w h).dataVersion = 3100 ∧
    (saveSchem (blockPalette table) (indexGrid table (blockPalette table) pix ow oh w h) w h).width = (w : ℤ) ∧
    (saveSchem (blockPalette table) (indexGrid table (blockPalette table) pix ow oh w h) w h).height = 1 ∧
    (saveSchem (blockPalette table) (indexGrid table (blockPalette table) pix ow oh w h) w h).length = (h : ℤ) ∧
    (saveSchem (blockPalette table) (indexGrid table (blockPalette table) pix ow oh w h) w h).offset = [0, 0, 0] ∧
    (∀ (name : String) (i : ℕ),
      (name, i) ∈ (saveSchem (blockPalette table) (indexGrid table (blockPalette table) pix ow oh w h) w h).palette ↔
        (blockPalette table)[i]? = some name) ∧
    (saveSchem (blockPalette table) (indexGrid table (blockPalette table) pix ow oh w h) w h).blockData.length = w * h ∧
    (∀ x y, x < w → y < h →
      (saveSchem (blockPalette table) (indexGrid table (blockPalette table) pix ow oh w h) w h).blockData[y * w + x]? =
        some ((cellIndex table (blockPalette table) pix ow oh w h x y : ℕ) : ℤ)) ∧
    (saveSchem (blockPalette table) (indexGrid table (blockPalette table) pix ow oh w h) w h).blockEntities = [] := by
  obtain ⟨-, hrows, hflat, -⟩ := grid_shape table pix ow oh w h ht
  refine ⟨rfl, rfl, toShort_eq_of_lt w hws, rfl, toShort_eq_of_lt h hhs, rfl,
    fun name i => saveSchem_palette_mem (blockPalette table) _ w h name i, ?_, ?_, rfl⟩
  · show ((indexGrid table (blockPalette table) pix ow oh w h).flatten.map toByte).length = w * h
    rw [List.length_map]
    exact hflat
  · intro x y hx hy
    show ((indexGrid table (blockPalette table) pix ow oh w h).flatten.map toByte)[y * w + x]? = _
    rw [List.getElem?_map,
      indexGrid_flatten_getElem table (blockPalette table) pix ow oh w h x y hx hy]
    rw [Option.map_some']
    rw [toByte_eq_of_lt _ (lt_of_lt_of_le (cellIndex_lt table pix ow oh w h x y ht) hpal)]

/-- Witness for C5 on a concrete table, image and 1×1 grid. -/
theorem saveSchem_spec_witness :
    tableCex ≠ [] ∧ (1 : ℕ) < 32768 ∧ (blockPalette tableCex).length ≤ 128 ∧
    ((saveSchem (blockPalette tableCex) (indexGrid tableCex (blockPalette tableCex) pixBlack 2 2 1 1) 1 1).version = 2 ∧
      (saveSchem (blockPalette tableCex) (indexGrid tableCex (blockPalette tableCex) pixBlack 2 2 1 1) 1 1).dataVersion = 3100 ∧
      (saveSchem (blockPalette tableCex) (indexGrid tableCex (blockPalette tableCex) pixBlack 2 2 1 1) 1 1).width = (1 : ℤ) ∧
      (saveSchem (blockPalette tableCex) (indexGrid tableCex (blockPalette tableCex) pixBlack 2 2 1 1) 1 1).height = 1 ∧
      (saveSchem (blockPalette tableCex) (indexGrid tableCex (blockPalette tableCex) pixBlack 2 2 1 1) 1 1).length = (1 : ℤ) ∧
      (saveSchem (blockPalette tableCex) (indexGrid tableCex (blockPalette tableCex) pixBlack 2 2 1 1) 1 1).offset = [0, 0, 0] ∧
      (∀ (name : String) (i : ℕ),
        (name, i) ∈ (saveSchem (blockPalette tableCex) (indexGrid tableCex (blockPalette tableCex) pixBlack 2 2 1 1) 1 1).palette ↔
          (blockPalette tableCex)[i]? = some name) ∧
      (saveSchem (blockPalette tableCex) (indexGrid tableCex (blockPalette tableCex) pixBlack 2 2 1 1) 1 1).blockData.length = 1 * 1 ∧
      (∀ x y, x < 1 → y < 1 →
        (saveSchem (blockPalette tableCex) (indexGrid tableCex (blockPalette tableCex) pixBlack 2 2 1 1) 1 1).blockData[y * 1 + x]? =
          some ((cellIndex tableCex (blockPalette tableCex) pixBlack 2 2 1 1 x y : ℕ) : ℤ)) ∧
      (saveSchem (blockPalette tableCex) (indexGrid tableCex (blockPalette tableCex) pixBlack 2 2 1 1) 1 1).blockEntities = []) :=
  ⟨by decide, by decide, by decide,
    saveSchem_spec tableCex pixBlack 2 2 1 1 (by decide) (by decide) (by decide) (by decide)⟩

/-- Floor of a natural number times a rational scale a * (b / n) is natural
division of the products. -/
theorem floor_mul_div (a b n : ℕ) :
    ⌊(a : ℚ) * ((b : ℚ) / (n : ℚ))⌋₊ = a * b / n := by
  rw [show (a : ℚ) * ((b : ℚ) / (n : ℚ)) = ((a * b : ℕ) : ℚ) / (n : ℚ) by push_cast; ring]
  exact Nat.floor_div_eq_div (a * b) n

/-- Every color of a cell's sampled region is a pixel of the buffer. -/
theorem cellRegion_mem (pix : Pix) (ow oh w h x y : ℕ)
    (c : Color) (hc : c ∈ cellRegion pix ow oh w h x y) :
    ∃ i j, c = pix i j := by
  unfold cellRegion at hc
  simp only [List.mem_flatMap, List.mem_map, List.mem_range] at hc
  obtain ⟨j, -, i, -, rfl⟩ := hc
  exact ⟨_, _, rfl⟩

/-- The exact-arithmetic cell value coincides with the spec's exact-floor
formula unconditionally: the floors of the rational scale products are the
corresponding natural divisions. -/
theorem cellColor_eq_spec (pix : Pix) (ow oh w h x y : ℕ) :
    cellColor pix ow oh w h x y = specCellColor pix ow oh w h x y := by
  have hx1 : ((x : ℚ) + 1) * ((ow : ℚ) / (w : ℚ)) =
      ((x + 1 : ℕ) : ℚ) * ((ow : ℚ) / (w : ℚ)) := by push_cast; ring
  have hy1 : ((y : ℚ) + 1) * ((oh : ℚ) / (h : ℚ)) =
      ((y + 1 : ℕ) : ℚ) * ((oh : ℚ) / (h : ℚ)) := by push_cast; ring
  unfold cellColor cellRegion specCellColor
  simp only [hx1, hy1, floor_mul_div, Nat.floor_div_eq_div]

/-- Every color of a bit-faithfully sampled region is a pixel of the
buffer. -/
theorem cellRegionF_mem (pix : Pix) (ow oh w h x y : ℕ)
    (c : Color) (hc : c ∈ cellRegionF pix ow oh w h x y) :
    ∃ i j, c = pix i j := by
  unfold cellRegionF at hc
  simp only [List.mem_flatMap, List.mem_map, List.mem_range] at hc
  obtain ⟨j, -, i, -, rfl⟩ := hc
  exact ⟨_, _, rfl⟩

/-- C3 counterexample: a 1-pixel-wide black image upscaled to width 49, at
cell x = 48: the program computes int(49 * (1/49)) = 0 in binary64, making
the sampled rectangle empty and the cell pure white, while the claim's
exact formula min(floor(49 * (1/49)), 1) = 1 selects the single black
pixel. -/
theorem resample_float_cex :
    (1 ≤ 49) ∧ (1 ≤ 1) ∧
    cellColorF pixBlack 1 1 49 1 48 0 = (255, 255, 255) ∧
    specCellColor pixBlack 1 1 49 1 48 0 = (0, 0, 0) ∧
    srcIdx 49 1 49 = 0 ∧ 49 * 1 / 49 = 1 := by
  refine ⟨by decide, by decide, by decide, ?_, by decide, by decide⟩
  rw [← cellColor_eq_spec]
  decide

/-- C3 amended: with the rectangle bounds computed as the program computes
them (binary64 truncations `srcIdx`), the cell value follows the claim's
truncated-mean formula; at every cell where those truncations coincide with
the exact floors it equals the spec's exact formula; channels stay in
[0, 255] for 8-bit input; an empty rectangle gives exactly pure white. -/
theorem cellColorF_spec (pix : Pix) (ow oh w h x y : ℕ) (_hw : 1 ≤ w) (_hh : 1 ≤ h)
    (hpix : ∀ i j, InRange (pix i j))
    (hx0 : srcIdx x ow w = x * ow / w)
    (hx1 : srcIdx (x + 1) ow w = (x + 1) * ow / w)
    (hy0 : srcIdx y oh h = y * oh / h)
    (hy1 : srcIdx (y + 1) oh h = (y + 1) * oh / h) :
    cellColorF pix ow oh w h x y = specCellColor pix ow oh w h x y ∧
    InRange (cellColorF pix ow oh w h x y) ∧
    (cellRegionF pix ow oh w h x y = [] →
      cellColorF pix ow oh w h x y = (255, 255, 255)) := by
  have hreg : cellRegionF pix ow oh w h x y = cellRegion pix ow oh w h x y := by
    unfold cellRegionF cellRegion
    rw [hx0, hx1, hy0, hy1]
  have hcol : cellColorF pix ow oh w h x y = cellColor pix ow oh w h x y := by
    unfold cellColorF cellColor
    rw [hreg]
  refine ⟨?_, ?_, ?_⟩
  · rw [hcol]
    exact cellColor_eq_spec pix ow oh w h x y
  · by_cases hempty : cellRegionF pix ow oh w h x y = []
    · rw [cellColorF, if_pos hempty]
      decide
    · rw [cellColorF, if_neg hempty]
      have hlen : 0 < (cellRegionF pix ow oh w h x y).length :=
        List.length_pos.mpr hempty
      have hbound : ∀ (f : Color → ℕ), (∀ c : Color, InRange c → f c ≤ 255) →
          ((cellRegionF pix ow oh w h x y).map f).sum /
              (cellRegionF pix ow oh w h x y).length ≤ 255 := by
        intro f hf
        have hsum : ((cellRegionF pix ow oh w h x y).map f).sum ≤
            255 * (cellRegionF pix ow oh w h x y).length := by
          calc ((cellRegionF pix ow oh w h x y).map f).sum
              ≤ ((cellRegionF pix ow oh w h x y).map f).length • 255 := by
                refine List.sum_le_card_nsmul _ 255 ?_
                intro v hv
                obtain ⟨c, hc, rfl⟩ := List.mem_map.mp hv
                obtain ⟨i, j, rfl⟩ := cellRegionF_mem pix ow oh w h x y c hc
                exact hf _ (hpix i j)
            _ = 255 * (cellRegionF pix ow oh w h x y).length := by
                rw [List.length_map, smul_eq_mul, Nat.mul_comm]
        calc ((cellRegionF pix ow oh w h x y).map f).sum /
              (cellRegionF pix ow oh w h x y).length
            ≤ 255 * (cellRegionF pix ow oh w h x y).length /
              (cellRegionF pix ow oh w h x y).length := Nat.div_le_div_right hsum
          _ = 255 := Nat.mul_div_cancel 255 hlen
      exact ⟨hbound (fun c => c.1) (fun c hc => hc.1),
        hbound (fun c => c.2.1) (fun c hc => hc.2.1),
        hbound (fun c => c.2.2) (fun c hc => hc.2.2)⟩
  · intro hempty
    rw [cellColorF, if_pos hempty]

/-- Witness for the amended C3 at a downscale where the binary64 bounds
agree with the exact floors. -/
theorem cellColorF_spec_witness :
    (1 ≤ 1) ∧ (srcIdx 0 2 1 = 0 * 2 / 1) ∧ (srcIdx 1 2 1 = 1 * 2 / 1) ∧
    (cellColorF pixBlack 2 2 1 1 0 0 = specCellColor pixBlack 2 2 1 1 0 0 ∧
      InRange (cellColorF pixBlack 2 2 1 1 0 0) ∧
      (cellRegionF pixBlack 2 2 1 1 0 0 = [] →
        cellColorF pixBlack 2 2 1 1 0 0 = (255, 255, 255))) :=
  ⟨le_refl 1, by decide, by decide,
    cellColorF_spec pixBlack 2 2 1 1 0 0 (le_refl 1) (le_refl 1)
      (fun _ _ => ⟨Nat.zero_le 255, Nat.zero_le 255, Nat.zero_le 255⟩)
      (by decide) (by decide) (by decide) (by decide)⟩

/-- C7: resampling at the original dimensions reproduces the pixel buffer
exactly: each cell's rectangle is the single source pixel (x, y). -/
theorem resample_id (pix : Pix) (ow oh x y : ℕ) (hx : x < ow) (hy : y < oh) :
    cellColor pix ow oh ow oh x y = pix x y := by
  have how : 0 < ow := lt_of_le_of_lt (Nat.zero_le x) hx
  have hoh : 0 < oh := lt_of_le_of_lt (Nat.zero_le y) hy
  have h1 : x * ow / ow = x := Nat.mul_div_cancel x how
  have h2 : min ((x + 1) * ow / ow) ow = x + 1 := by
    rw [Nat.mul_div_cancel (x + 1) how]
    exact min_eq_left (Nat.succ_le_of_lt hx)
  have h3 : y * oh / oh = y := Nat.mul_div_cancel y hoh
  have h4 : min ((y + 1) * oh / oh) oh = y + 1 := by
    rw [Nat.mul_div_cancel (y + 1) hoh]
    exact min_eq_left (Nat.succ_le_of_lt hy)
  simp only [cellColor, cellRegion, h1, h2, h3, h4]
  simp [List.range_succ]

/-- Witness for C7 on a concrete buffer and in-bounds cell. -/
theorem resample_id_witness :
    (2 < 3) ∧ (1 < 3) ∧ cellColor pixTest 3 3 3 3 2 1 = pixTest 2 1 :=
  ⟨by decide, by decide, resample_id pixTest 3 3 2 1 (by decide) (by decide)⟩

end SunPixel
